import Mathlib

/-
Verification development for the discovery-and-scheduling core of the
"mix" mail indexing agent (Rust sources: src/config.rs, src/main.rs,
src/mailbox.rs, src/mailbox/task.rs).

The Rust code is shallowly embedded: filesystem entries become an
explicit (symlink-resolved) tree datatype carrying canonical-inode
identifiers, fallible Rust functions returning Result become Except /
an explicit result type, the process-aborting assert! macro becomes a
distinguished `panic` outcome, and the BTreeSet-backed work queue
becomes a strictly-sorted duplicate-free list ordered by the same key
the Rust Ord implementation compares.
-/

set_option maxHeartbeats 1000000

namespace Mix

/-- A filesystem path, as the list of its components.  The Rust code
manipulates `std::path::Path` values; `parent()` is modelled by
`List.dropLast` and `file_name()` by `List.getLast?`. -/
abbrev FPath := List String

/-- Constant MBOX_MAGIC from mailbox.rs: the bytes of the ASCII string
"From " (0x46 0x72 0x6F 0x6D 0x20). -/
def MBOX_MAGIC : List Nat := [0x46, 0x72, 0x6F, 0x6D, 0x20]

/-- Constant GZIP_MAGIC from mailbox.rs: the two gzip magic bytes. -/
def GZIP_MAGIC : List Nat := [0x1F, 0x8B]

/-- Constant MDIR_SUBDIRS from mailbox.rs: the three maildir
subdirectory names. -/
def MDIR_SUBDIRS : List String := ["cur", "new", "tmp"]

mutual

/-- A filesystem tree as seen by a `WalkDir` traversal with
`follow_links(true)`: every symlink is already resolved, so an entry is
a regular file, a directory, or some other kind of node.  `cid` is the
canonical identity (inode) of the node: two positions in the tree that
are aliases of one another (via symlinks or overlapping roots) carry
the same `cid`.  For files, `content` is the byte content,
`gunzip` is the decompressed stream when the bytes gzip-decode cleanly
(`none` models a decoder failure), and `openOk` models whether
`File::open` succeeds. -/
inductive FTree where
  | file (cid : Nat) (content : List Nat) (gunzip : Option (List Nat)) (openOk : Bool)
  | dir (cid : Nat) (children : Forest)
  | other (cid : Nat)

/-- The named children of a directory, in traversal order. -/
inductive Forest where
  | nil
  | cons (name : String) (t : FTree) (rest : Forest)

end

/-- The errors `Type::guess` can produce: `File::open` failing, a
read_exact hitting end of stream before filling the 5-byte buffer, and
the gzip decoder failing. -/
inductive GuessErr where
  | openFail
  | eof
  | gzipFail
deriving DecidableEq, Repr

/-- Model of `Read::read_exact` into a 5-byte buffer: succeeds with the
first five bytes exactly when the stream holds at least five, and
otherwise fails with an unexpected-EOF error. -/
def readExact5 (bytes : List Nat) : Except GuessErr (List Nat) :=
  if 5 ≤ bytes.length then .ok (bytes.take 5) else .error .eof

/-- The `Type` enum of mailbox.rs (renamed: `Type` is reserved in
Lean): plain mbox file, gzip-compressed mbox file, maildir
directory. -/
inductive Type' where
  | Plain
  | Gzip
  | Dir
deriving DecidableEq, Repr

/-- Lookup of a named child, as done by `entry.path().join(sub)`. -/
def Forest.find : Forest → String → Option FTree
  | .nil, _ => none
  | .cons n t rest, name => if n = name then some t else Forest.find rest name

/-- Whether a resolved tree node is a directory (`FileType::is_dir`). -/
def FTree.isDirB : FTree → Bool
  | .dir _ _ => true
  | _ => false

/-- Whether a resolved tree node is a regular file
(`FileType::is_file`). -/
def FTree.isFileB : FTree → Bool
  | .file _ _ _ _ => true
  | _ => false

/-- Model of `entry.path().join(sub).is_dir()`: the directory has a child of the
given name and that child (after following symlinks) is a
directory. -/
def hasDirChild (children : Forest) (name : String) : Bool :=
  match children.find name with
  | some t => t.isDirB
  | none => false

/-- Function `Type::guess` from mailbox.rs.  For a regular file: open it, read
the first 5 bytes (a short file makes this `read_exact` fail, and the
`?` operator propagates the error), compare with MBOX_MAGIC, then with
GZIP_MAGIC on the first two bytes; on a gzip match, seek back,
decompress and compare the first 5 decompressed bytes with MBOX_MAGIC.
For a directory: a maildir exactly when all of MDIR_SUBDIRS exist as
directories directly under it.  Anything else is no mailbox. -/
def Type'.guess (t : FTree) : Except GuessErr (Option Type') :=
  match t with
  | .file _ content gunzip openOk =>
    if openOk then
      match readExact5 content with
      | .error e => .error e
      | .ok beginning =>
        if beginning = MBOX_MAGIC then .ok (some .Plain)
        else if beginning.take 2 = GZIP_MAGIC then
          match gunzip with
          | none => .error .gzipFail
          | some dec =>
            match readExact5 dec with
            | .error e => .error e
            | .ok dbeg =>
              if dbeg = MBOX_MAGIC then .ok (some .Gzip) else .ok none
        else .ok none
    else .error .openFail
  | .dir _ children =>
    if MDIR_SUBDIRS.all (fun sub => hasDirChild children sub) then .ok (some .Dir)
    else .ok none
  | .other _ => .ok none

/-- Modelled from the spec: the per-store cache state.  The modules
mbox.rs and mdir.rs (types `Mbox` and `Mdir`, used only through their
`Default` instances here) are not among the provided sources; the spec
describes the cache as opaque seed state, one variant shared by
`Plain`/`Gzip` and another for `Dir`, so each variant is modelled as an
opaque default value. -/
inductive Cache where
  | MboxCache
  | MdirCache
deriving DecidableEq, Repr

/-- The `Mailbox` struct of mailbox.rs. -/
structure Mailbox where
  path : FPath
  name : String
  tp : Type'
  cache : Cache
  prio : Nat
  shortcut : Option Char
deriving DecidableEq, Repr

/-- Function `Mailbox::detect` from mailbox.rs: classify the entry with
`Type::guess`; on a match build a `Mailbox` whose name is the final
path component (or a placeholder when there is none), whose cache
variant matches the detected type, and whose priority and shortcut are
the defaults. -/
def Mailbox.detect (path : FPath) (t : FTree) : Except GuessErr (Option Mailbox) :=
  match Type'.guess t with
  | .error e => .error e
  | .ok none => .ok none
  | .ok (some mt) =>
    let name := (path.getLast?).getD "<???>"
    let cache := match mt with
      | .Plain | .Gzip => Cache.MboxCache
      | .Dir => Cache.MdirCache
    .ok (some ⟨path, name, mt, cache, 0, none⟩)

/-- One mutating method call a lua configuration callback can make on
the `Mailbox` userdata handle.  `Mailbox::add_methods` registers
exactly three mutating methods: `set_name`, `set_prio` and
`set_shortcut`; `name` and `path` are the only readers and there is no
method writing `path`, `tp` or `cache`. -/
inductive CbStep where
  | set_name (s : String)
  | set_prio (p : Nat)
  | set_shortcut (s : String)
deriving DecidableEq, Repr

/-- The effect of one handle method call on the underlying `Mailbox`
(`set_shortcut` keeps the first character of the supplied string, as
`sc.chars().nth(0)` does). -/
def applyStep (m : Mailbox) : CbStep → Mailbox
  | .set_name s => { m with name := s }
  | .set_prio p => { m with prio := p }
  | .set_shortcut s => { m with shortcut := s.toList.head? }

/-- A registered lua configuration callback, abstracted to the
sequence of mutating handle calls it performs and whether it ends by
raising a lua error (which `configure_mbox` propagates). -/
structure Callback where
  steps : List CbStep
  fails : Bool
deriving DecidableEq, Repr

/-- Running one callback on the handle: perform its writes in order,
then either succeed or raise. -/
def runCallback (m : Mailbox) (cb : Callback) : Except Unit Mailbox :=
  let m' := cb.steps.foldl applyStep m
  if cb.fails then .error () else .ok m'

/-- Function `configure_mbox` from mailbox.rs: run every callback registered via
`register_config`, in registration order, against the one userdata
handle; a callback error aborts with `Err`; on success the final state
of the handle is returned. -/
def configure_mbox (cbacks : List Callback) (m : Mailbox) : Except Unit Mailbox :=
  match cbacks with
  | [] => .ok m
  | cb :: rest =>
    match runCallback m cb with
    | .error e => .error e
    | .ok m' => configure_mbox rest m'

/-- The `ArcCmp<T>` wrapper of task.rs: a shared pointer compared by
the address of its pointee.  `addr` is the address of the shared
allocation's data (two clones of one `Arc` share it; distinct
`Arc::new` calls get distinct addresses), `val` the pointee. -/
structure ArcCmp (T : Type) where
  addr : Nat
  val : T
deriving DecidableEq, Repr

/-- Model of `Arc::ptr_eq`, the `PartialEq` implementation of `ArcCmp`: true
exactly when both handles point at the same allocation. -/
def ArcCmp.ptrEq {T : Type} (a b : ArcCmp T) : Bool :=
  a.addr == b.addr

/-- The `Ord` implementation of `ArcCmp`: compare the numeric addresses
of the pointed-to values. -/
def ArcCmp.cmp {T : Type} (a b : ArcCmp T) : Ordering :=
  compare a.addr b.addr

/-- The `Task` enum of task.rs; the single variant holds a shared
reference to the `Mailbox` to rescan. -/
inductive Task where
  | Rescan (a : ArcCmp Mailbox)
deriving DecidableEq, Repr

/-- Constructor function `Task::rescan`. -/
def Task.rescan (a : ArcCmp Mailbox) : Task :=
  Task.Rescan a

/-- The derived `Ord` on `Task`: variants in declaration order, and
within the single `Rescan` variant the `ArcCmp` comparison. -/
def Task.cmp : Task → Task → Ordering
  | .Rescan a, .Rescan b => ArcCmp.cmp a b

/-- The comparison key of a task: the address inside its `ArcCmp`. -/
def Task.key : Task → Nat
  | .Rescan a => a.addr

/-- The work queue of task.rs, a `BTreeSet<Task>`, modelled as the
strictly ascending (by comparison key) duplicate-free list of its
elements. -/
abbrev Queue := List Task

/-- Function `Queue::new`. -/
def Queue.new : Queue := ([] : List Task)

/-- The `BTreeSet` representation invariant: elements strictly
ascending under the task ordering. -/
def QueueWf (q : Queue) : Prop :=
  List.Pairwise (fun a b => Task.key a < Task.key b) q

instance : DecidablePred QueueWf := fun q =>
  inferInstanceAs (Decidable (List.Pairwise _ q))

/-- Insertion into the sorted-list model of the `BTreeSet`: place the
task before the first strictly greater element; if an equal element is
already present the set keeps the existing element. -/
def insertTask (t : Task) : List Task → List Task
  | [] => [t]
  | x :: xs =>
    if Task.key t < Task.key x then t :: x :: xs
    else if Task.key t = Task.key x then x :: xs
    else x :: insertTask t xs

/-- Function `Queue::push` from task.rs: `BTreeSet::insert`, merging
duplicates. -/
def Queue.push (q : Queue) (t : Task) : Queue :=
  insertTask t q

/-- Removal of the element comparing equal to the given task
(`BTreeSet::remove`). -/
def removeTask (t : Task) : List Task → List Task
  | [] => []
  | x :: xs => if Task.cmp x t = .eq then xs else x :: removeTask t xs

/-- Function `Queue::pop` from task.rs: clone the first (minimum) element of the
set, remove it, and return it; `none` on an empty queue.  Returns the
popped task together with the remaining queue. -/
def Queue.pop (q : Queue) : Option Task × Queue :=
  match List.head? q with
  | none => (none, q)
  | some t => (some t, removeTask t q)

/-- Repeated popping with explicit fuel, collecting the yielded tasks
in order. -/
def drainAux : Nat → Queue → List Task
  | 0, _ => []
  | n + 1, q =>
    match Queue.pop q with
    | (none, _) => []
    | (some t, q') => t :: drainAux n q'

/-- Draining the queue by repeated `pop` until it reports empty. -/
def Queue.drain (q : Queue) : List Task :=
  drainAux (List.length q) q

/-- Struct `StorageMeta` from config.rs: the per-path override metadata of the
`storage.meta` configuration table. -/
structure StorageMeta where
  shortcut : Option Char
  prio : Nat
deriving DecidableEq, Repr

/-- The configuration consumed by `initial_scan`: the `storage.search`
roots, the `storage.meta` override map (an association list here), and
the configuration callbacks that loading the `scripts` files has
registered via `register_config` (script loading itself is fatal on
failure before any traversal, so a completed load is assumed). -/
structure Cfg where
  search : List FPath
  meta : List (FPath × StorageMeta)
  scripts : List Callback
deriving Repr

/-- The mutable state threaded through one `initial_scan` run: the
scan-local dedup set of already claimed paths, the process-wide
`MAILBOXES` registry (name keyed, holding the shared store handles),
the work queue, and an allocator counter handing out the address of
each fresh `Arc::new` allocation. -/
structure ScanState where
  dedup : List FPath
  mailboxes : List (String × ArcCmp Mailbox)
  queue : Queue
  nextAddr : Nat
deriving DecidableEq, Repr

/-- The empty state at process start: registry empty, queue `new`,
nothing deduplicated. -/
def ScanState.init : ScanState :=
  ⟨[], [], Queue.new, 0⟩

/-- Function `scan_cutoff` from mailbox.rs: skip an entry whose exact path is
already claimed, or a directory named `cur`, `new` or `tmp` whose
parent path is already claimed. -/
def scan_cutoff (dedup : List FPath) (path : FPath) (isDir : Bool) : Bool :=
  if dedup.contains path then true
  else
    match path.getLast? with
    | some last => isDir && MDIR_SUBDIRS.contains last && dedup.contains path.dropLast
    | none => false

/-- The three ways one scan can end: normally, with the `Err` that
`initial_scan` returns when a lua failure propagates through `?`, or
aborting the whole process because an `assert!` failed. -/
inductive ScanRes (α : Type) where
  | ok (a : α)
  | err
  | panic
deriving DecidableEq, Repr

/-- The `Ok(Some(mbox))` arm of the scan loop in `initial_scan`:
customize the store through the lua callbacks (an error there is
returned as `Err` via `?`), wrap it in a fresh `Arc`, assert the
(possibly script-modified) name is not yet in `MAILBOXES` (a duplicate
is an assertion failure, aborting the process), insert it, enqueue a
`Rescan` task holding the same shared handle, emit the (log-only)
notification, and assert-insert the entry path into the dedup set. -/
def commit (cbacks : List Callback) (st : ScanState) (entryPath : FPath)
    (mbox : Mailbox) : ScanRes ScanState :=
  match configure_mbox cbacks mbox with
  | .error _ => .err
  | .ok mbox =>
    let name := mbox.name
    if ((st.mailboxes.lookup name).isSome : Bool) then .panic
    else
      let arc : ArcCmp Mailbox := ⟨st.nextAddr, mbox⟩
      let st' : ScanState :=
        { st with
          mailboxes := (name, arc) :: st.mailboxes
          queue := st.queue.push (Task.rescan arc)
          nextAddr := st.nextAddr + 1 }
      if st'.dedup.contains entryPath then .panic
      else .ok { st' with dedup := entryPath :: st'.dedup }

mutual

/-- Processing of one visited entry by the scan loop of
`initial_scan`: first the cutoff test (a hit calls
`skip_current_dir`, pruning the whole subtree); otherwise
`Mailbox::detect` runs — a detection error is logged and the entry
treated as no mailbox, a detected mailbox is committed — and the walk
then descends into the children of a directory entry (detection does
not prune the walk; the maildir-internal subdirectories of a freshly
claimed store are pruned later by the cutoff's parent test). -/
def scanNode (cbacks : List Callback) (path : FPath) (t : FTree)
    (st : ScanState) : ScanRes ScanState :=
  if scan_cutoff st.dedup path t.isDirB then .ok st
  else
    let after : ScanRes ScanState :=
      match Mailbox.detect path t with
      | .error _ => .ok st
      | .ok none => .ok st
      | .ok (some m) => commit cbacks st path m
    match after with
    | .ok st1 =>
      match t with
      | .dir _ children => scanForest cbacks path children st1
      | _ => .ok st1
    | r => r

/-- Left-to-right traversal of a directory's children, threading the
scan state and stopping at the first `Err` or panic. -/
def scanForest (cbacks : List Callback) (base : FPath) (f : Forest)
    (st : ScanState) : ScanRes ScanState :=
  match f with
  | .nil => .ok st
  | .cons name t rest =>
    match scanNode cbacks (base ++ [name]) t st with
    | .ok st1 => scanForest cbacks base rest st1
    | r => r

end

/-- The loop of `initial_scan` over the configured search roots.  The
filesystem is a partial map from root path to resolved tree; a root
that cannot be walked at all yields one walkdir error, which is logged
and the scan continues with the next root. -/
def initialScanGo (cbacks : List Callback) (fs : FPath → Option FTree) :
    List FPath → ScanState → ScanRes ScanState
  | [], st => .ok st
  | p :: rest, st =>
    match fs p with
    | none => initialScanGo cbacks fs rest st
    | some t =>
      match scanNode cbacks p t st with
      | .ok st1 => initialScanGo cbacks fs rest st1
      | r => r

/-- Function `initial_scan` from mailbox.rs: with the scripts loaded and their
callbacks registered, walk every root in `storage.search` in order
over the filesystem `fs`, starting from the empty dedup set, empty
registry and fresh queue.  Note the body consumes `cfg.scripts` and
`cfg.search` only; `cfg.meta` (the parsed `storage.meta` table) is
never read by the scan. -/
def initial_scan (cfg : Cfg) (fs : FPath → Option FTree) : ScanRes ScanState :=
  initialScanGo cfg.scripts fs cfg.search ScanState.init

instance {ε α : Type} [DecidableEq ε] [DecidableEq α] : DecidableEq (Except ε α) :=
  fun x y =>
    match x, y with
    | .ok a, .ok b =>
      if h : a = b then isTrue (by rw [h]) else isFalse (by simp [h])
    | .error a, .error b =>
      if h : a = b then isTrue (by rw [h]) else isFalse (by simp [h])
    | .ok _, .error _ => isFalse (by simp)
    | .error _, .ok _ => isFalse (by simp)

/-- A regular file of three bytes (a prefix of MBOX_MAGIC) that opens
fine: too short for the five-byte probe. -/
def shortFile : FTree :=
  FTree.file 0 [0x46, 0x72, 0x6F] none true

/-- A concrete committed store used by the closed witnesses. -/
def sampleMailbox : Mailbox :=
  ⟨["r", "a"], "a", .Dir, .MdirCache, 0, none⟩

/-- A rescan task for the allocation at address 0. -/
def taskA : Task := .Rescan ⟨0, sampleMailbox⟩

/-- A rescan task for a distinct allocation at address 1. -/
def taskB : Task := .Rescan ⟨1, sampleMailbox⟩

/-- A callback that renames the store, sets priority 5 and shortcut
from the string "ab". -/
def sampleCallback : Callback :=
  ⟨[.set_name "x", .set_prio 5, .set_shortcut "ab"], false⟩

/-- The store committed under a given name by a finished scan. -/
def committedStore (r : ScanRes ScanState) (name : String) : Option Mailbox :=
  match r with
  | .ok st => (st.mailboxes.lookup name).map ArcCmp.val
  | _ => none

/-- A configuration whose `storage.meta` carries an override (shortcut
'z', priority 9) for the path r/mb, with no scripts. -/
def c2Cfg : Cfg :=
  ⟨[["r"]], [(["r", "mb"], ⟨some 'z', 9⟩)], []⟩

/-- A filesystem with one root holding a single plain mbox file at
r/mb. -/
def c2Fs : FPath → Option FTree := fun p =>
  if p = ["r"] then
    some (.dir 0 (.cons "mb"
      (.file 1 [0x46, 0x72, 0x6F, 0x6D, 0x20, 65] none true) .nil))
  else none

/-- The canonical identity of a tree node. -/
def FTree.cid : FTree → Nat
  | .file c _ _ _ => c
  | .dir c _ => c
  | .other c => c

/-- Resolution of a relative path inside a (symlink-resolved) tree. -/
def resolveIn : FTree → List String → Option FTree
  | t, [] => some t
  | t, n :: rest =>
    match t with
    | .dir _ children =>
      match children.find n with
      | some c => resolveIn c rest
      | none => none
    | _ => none

/-- How many stores a finished scan committed to the registry. -/
def storeCount : ScanRes ScanState → Nat
  | .ok st => st.mailboxes.length
  | _ => 0

/-- How many tasks a finished scan left in the work queue. -/
def taskCount : ScanRes ScanState → Nat
  | .ok st => st.queue.length
  | _ => 0

/-- A maildir subtree; both occurrences below carry the same canonical
identities, modelling one on-disk maildir reachable twice (one of the
two directory entries is a symlink to the other). -/
def mdirAlias : FTree :=
  .dir 7 (.cons "cur" (.dir 8 .nil) (.cons "new" (.dir 9 .nil)
    (.cons "tmp" (.dir 10 .nil) .nil)))

/-- A root whose children "a" and "b" resolve to the same canonical
maildir. -/
def c1Tree : FTree :=
  .dir 0 (.cons "a" mdirAlias (.cons "b" mdirAlias .nil))

/-- The filesystem for the C1 counterexample. -/
def c1Fs : FPath → Option FTree := fun p =>
  if p = ["r"] then some c1Tree else none

/-- Scan configuration for the C1 counterexample: one root, no
overrides, no scripts. -/
def c1Cfg : Cfg := ⟨[["r"]], [], []⟩

mutual

/-- Node count of a tree, the induction measure for walk lemmas. -/
def FTree.size : FTree → Nat
  | .file _ _ _ _ => 1
  | .other _ => 1
  | .dir _ children => 1 + Forest.size children

/-- Node count of a forest. -/
def Forest.size : Forest → Nat
  | .nil => 1
  | .cons _ t rest => 1 + FTree.size t + Forest.size rest

end

/-- C3.  The claim states that the Classifier returns the "not a
store" result (`Ok(None)`) for a regular file shorter than 5 bytes.
It does not: `read_exact` fails on such a file and the `?` operator in
`Type::guess` escalates that failure, so the Classifier returns an
I/O error (here on a 3-byte file), not `Ok(None)`. -/
theorem c3_counterexample :
    Type'.guess shortFile = .error .eof ∧ Type'.guess shortFile ≠ .ok none := by
  decide

/-- C3, amended: for every regular file shorter than 5 bytes (that
opens successfully), the Classifier escalates the failed 5-byte header
read as an unexpected-EOF I/O error rather than returning the "not a
store" result; the Tree Scanner then logs that error, treats the entry
as no mailbox, and continues (the scan state is unchanged by the
entry). -/
theorem c3_short_file_error (cid : Nat) (content : List Nat)
    (gunzip : Option (List Nat)) (h : content.length < 5) :
    Type'.guess (.file cid content gunzip true) = .error .eof ∧
    ∀ (cbacks : List Callback) (path : FPath) (st : ScanState),
      scanNode cbacks path (.file cid content gunzip true) st = .ok st := by
  have hg : Type'.guess (.file cid content gunzip true) = .error .eof := by
    simp [Type'.guess, readExact5, Nat.not_le.mpr h]
  refine ⟨hg, fun cbacks path st => ?_⟩
  rw [scanNode]
  by_cases hcut : scan_cutoff st.dedup path (FTree.isDirB (.file cid content gunzip true))
  · simp [hcut]
  · simp [hcut, Mailbox.detect, hg]

/-- Witness for the amended C3 at the concrete 3-byte file. -/
theorem c3_short_file_error_witness :
    Type'.guess shortFile = .error .eof ∧
    scanNode [] ["r", "short"] shortFile ScanState.init = .ok ScanState.init :=
  ⟨(c3_short_file_error 0 [0x46, 0x72, 0x6F] none (by decide)).1,
   (c3_short_file_error 0 [0x46, 0x72, 0x6F] none (by decide)).2 [] ["r", "short"]
     ScanState.init⟩

/-- C7: for every regular file that the Classifier reads successfully
(it opens, and holds at least the five probe bytes): first five bytes
exactly MBOX_MAGIC gives `Plain`; otherwise a first-two-bytes gzip
magic match with a successfully decompressed stream of at least five
bytes gives `Gzip` when the first five decompressed bytes are
MBOX_MAGIC and the not-a-store result when they are anything else; a
file matching neither prefix is not a store.  The classification never
consults a file name or extension: `Type::guess` reads only the entry
type and the file bytes. -/
theorem c7_file_classification (cid : Nat) (content : List Nat)
    (gunzip : Option (List Nat)) (h5 : 5 ≤ content.length) :
    (content.take 5 = MBOX_MAGIC →
      Type'.guess (.file cid content gunzip true) = .ok (some .Plain)) ∧
    (content.take 5 ≠ MBOX_MAGIC → content.take 2 = GZIP_MAGIC →
      ∀ dec, gunzip = some dec → 5 ≤ dec.length →
        (dec.take 5 = MBOX_MAGIC →
          Type'.guess (.file cid content gunzip true) = .ok (some .Gzip)) ∧
        (dec.take 5 ≠ MBOX_MAGIC →
          Type'.guess (.file cid content gunzip true) = .ok none)) ∧
    (content.take 5 ≠ MBOX_MAGIC → content.take 2 ≠ GZIP_MAGIC →
      Type'.guess (.file cid content gunzip true) = .ok none) := by
  have htake : (content.take 5).take 2 = content.take 2 := by
    rw [List.take_take]
    norm_num
  refine ⟨fun hm => ?_, fun hm hgz dec hdec hd5 => ?_, fun hm hgz => ?_⟩
  · simp [Type'.guess, readExact5, h5, hm]
  · subst hdec
    refine ⟨fun hdm => ?_, fun hdm => ?_⟩
    · simp [Type'.guess, readExact5, h5, hm, htake, hgz, hd5, hdm]
    · simp [Type'.guess, readExact5, h5, hm, htake, hgz, hd5, hdm]
  · simp [Type'.guess, readExact5, h5, hm, htake, hgz]

/-- Witness for C7 at concrete plain, gzip, gzip-mismatch and
no-match files. -/
theorem c7_file_classification_witness :
    Type'.guess (.file 0 [0x46, 0x72, 0x6F, 0x6D, 0x20, 1] none true)
      = .ok (some .Plain) ∧
    Type'.guess (.file 0 [0x1F, 0x8B, 0, 0, 0]
      (some [0x46, 0x72, 0x6F, 0x6D, 0x20]) true) = .ok (some .Gzip) ∧
    Type'.guess (.file 0 [0x1F, 0x8B, 0, 0, 0]
      (some [9, 9, 9, 9, 9]) true) = .ok none ∧
    Type'.guess (.file 0 [1, 2, 3, 4, 5] none true) = .ok none :=
  ⟨(c7_file_classification 0 [0x46, 0x72, 0x6F, 0x6D, 0x20, 1] none (by decide)).1
      (by decide),
   ((c7_file_classification 0 [0x1F, 0x8B, 0, 0, 0]
      (some [0x46, 0x72, 0x6F, 0x6D, 0x20]) (by decide)).2.1 (by decide) (by decide)
      [0x46, 0x72, 0x6F, 0x6D, 0x20] rfl (by decide)).1 (by decide),
   ((c7_file_classification 0 [0x1F, 0x8B, 0, 0, 0]
      (some [9, 9, 9, 9, 9]) (by decide)).2.1 (by decide) (by decide)
      [9, 9, 9, 9, 9] rfl (by decide)).2 (by decide),
   (c7_file_classification 0 [1, 2, 3, 4, 5] none (by decide)).2.2 (by decide)
      (by decide)⟩

/-- C8: for every directory entry, the Classifier classifies it `Dir`
exactly when all three of the subdirectories `cur`, `new` and `tmp`
exist as directories directly under it, and returns the not-a-store
result when any of the three is missing. -/
theorem c8_dir_classification (cid : Nat) (children : Forest) :
    (Type'.guess (.dir cid children) = .ok (some .Dir) ↔
      (hasDirChild children "cur" = true ∧ hasDirChild children "new" = true ∧
        hasDirChild children "tmp" = true)) ∧
    (¬ (hasDirChild children "cur" = true ∧ hasDirChild children "new" = true ∧
        hasDirChild children "tmp" = true) →
      Type'.guess (.dir cid children) = .ok none) := by
  have hall : (MDIR_SUBDIRS.all fun sub => hasDirChild children sub) = true ↔
      (hasDirChild children "cur" = true ∧ hasDirChild children "new" = true ∧
        hasDirChild children "tmp" = true) := by
    simp [MDIR_SUBDIRS, List.all_cons, Bool.and_eq_true]
  constructor
  · constructor
    · intro hg
      by_contra hmiss
      rw [← hall] at hmiss
      simp [Type'.guess, hmiss] at hg
    · intro hc
      simp [Type'.guess, hall.mpr hc]
  · intro hmiss
    rw [← hall] at hmiss
    simp [Type'.guess, hmiss]

theorem nat_compare_eq_iff (m n : Nat) : compare m n = Ordering.eq ↔ m = n := by
  rcases Nat.lt_trichotomy m n with h | h | h
  · simp [Nat.compare_eq_lt.mpr h, Nat.ne_of_lt h]
  · simp [h, Nat.compare_eq_eq.mpr rfl]
  · simp [Nat.compare_eq_gt.mpr h, (Nat.ne_of_lt h).symm]

theorem nat_compare_lt_iff (m n : Nat) : compare m n = Ordering.lt ↔ m < n := by
  exact Nat.compare_eq_lt

theorem task_cmp_eq_iff (a b : Task) : Task.cmp a b = .eq ↔ Task.key a = Task.key b := by
  cases a with | Rescan x => cases b with | Rescan y =>
  simp only [Task.cmp, Task.key, ArcCmp.cmp]
  exact nat_compare_eq_iff x.addr y.addr

theorem task_cmp_self (t : Task) : Task.cmp t t = .eq :=
  (task_cmp_eq_iff t t).mpr rfl

theorem task_cmp_lt (a b : Task) (h : Task.key a < Task.key b) : Task.cmp a b = .lt := by
  cases a with | Rescan x => cases b with | Rescan y =>
  simp only [Task.cmp, ArcCmp.cmp]
  exact (nat_compare_lt_iff x.addr y.addr).mpr h

theorem insertTask_mem_eq (t : Task) :
    ∀ q : List Task, QueueWf q → (∃ u ∈ q, Task.key u = Task.key t) →
      insertTask t q = q := by
  intro q
  induction q with
  | nil => intro _ hex; simp at hex
  | cons x xs ih =>
    intro hwf hex
    obtain ⟨u, hu, hk⟩ := hex
    obtain ⟨hx, hxs⟩ := List.pairwise_cons.mp hwf
    rcases List.mem_cons.mp hu with rfl | humem
    · rw [insertTask, if_neg (by rw [hk]; exact lt_irrefl _), if_pos hk.symm]
    · have hlt : Task.key x < Task.key t := hk ▸ hx u humem
      rw [insertTask, if_neg (by exact Nat.lt_asymm hlt),
        if_neg (by exact Nat.ne_of_gt hlt),
        ih hxs ⟨u, humem, hk⟩]

theorem insertTask_idem (t : Task) :
    ∀ q : List Task, insertTask t (insertTask t q) = insertTask t q := by
  intro q
  induction q with
  | nil =>
    rw [insertTask, insertTask, if_neg (lt_irrefl _), if_pos rfl]
  | cons x xs ih =>
    by_cases h1 : Task.key t < Task.key x
    · rw [insertTask, if_pos h1, insertTask, if_neg (lt_irrefl _), if_pos rfl]
    · by_cases h2 : Task.key t = Task.key x
      · rw [insertTask, if_neg h1, if_pos h2, insertTask, if_neg h1, if_pos h2]
      · rw [insertTask, if_neg h1, if_neg h2, insertTask, if_neg h1, if_neg h2, ih]

/-- C4: for every (well-formed) Work Queue state and every task,
pushing a task that compares equal (same variant, same referenced
store identity) to one already present leaves the queue unchanged, and
pushing the same task identity twice leaves the queue's size unchanged
after the second push. -/
theorem c4_push_dedup (q : Queue) (t : Task) (hwf : QueueWf q)
    (h : ∃ u ∈ q, Task.cmp u t = .eq) :
    Queue.push q t = q ∧
    List.length (Queue.push (Queue.push q t) t) = List.length (Queue.push q t) := by
  obtain ⟨u, hu, hc⟩ := h
  have h1 : Queue.push q t = q :=
    insertTask_mem_eq t q hwf ⟨u, hu, (task_cmp_eq_iff u t).mp hc⟩
  refine ⟨h1, ?_⟩
  simp only [Queue.push, insertTask_idem]

/-- Witness for C4: pushing the task for allocation 0 into a queue
already holding it. -/
theorem c4_push_dedup_witness :
    Queue.push [taskA, taskB] taskA = [taskA, taskB] ∧
    List.length (Queue.push (Queue.push [taskA, taskB] taskA) taskA) =
      List.length (Queue.push [taskA, taskB] taskA) :=
  c4_push_dedup [taskA, taskB] taskA (by decide) ⟨taskA, by decide, by decide⟩

theorem removeTask_cons_self (t : Task) (rest : List Task) :
    removeTask t (t :: rest) = rest := by
  rw [removeTask, if_pos (task_cmp_self t)]

theorem queue_pop_cons (t : Task) (rest : List Task) :
    Queue.pop (t :: rest) = (some t, rest) := by
  rw [Queue.pop]
  simp [removeTask_cons_self]

theorem drainAux_eq : ∀ q : List Task, drainAux (List.length q) q = q := by
  intro q
  induction q with
  | nil => rfl
  | cons t rest ih =>
    rw [List.length_cons, drainAux, queue_pop_cons]
    simp [ih]

/-- C5: `pop` removes and returns the minimum pending task under the
task ordering (`none` exactly on the empty queue); draining by
repeated `pop` yields the tasks in non-decreasing order; and once
`pop` reports empty it leaves the queue as it was, so every further
`pop` returns `none` as well. -/
theorem c5_pop_min (q : Queue) (hwf : QueueWf q) :
    ((Queue.pop q).1 = none ↔ q = []) ∧
    (∀ t rest, q = t :: rest →
      Queue.pop q = (some t, rest) ∧ ∀ u ∈ q, Task.cmp t u ≠ .gt) ∧
    List.Chain' (fun a b => Task.cmp a b ≠ .gt) (Queue.drain q) ∧
    ((Queue.pop q).1 = none → Queue.pop q = (none, q)) := by
  have hmin : ∀ t rest, q = t :: rest →
      Queue.pop q = (some t, rest) ∧ ∀ u ∈ q, Task.cmp t u ≠ .gt := by
    intro t rest hq
    subst hq
    obtain ⟨hx, _⟩ := List.pairwise_cons.mp hwf
    refine ⟨queue_pop_cons t rest, fun u hu => ?_⟩
    rcases List.mem_cons.mp hu with rfl | hurest
    · rw [task_cmp_self]; intro hc; cases hc
    · rw [task_cmp_lt t u (hx u hurest)]; intro hc; cases hc
  refine ⟨?_, hmin, ?_, ?_⟩
  · cases q with
    | nil => simp [Queue.pop]
    | cons t rest =>
      rw [(hmin t rest rfl).1]
      simp
  · rw [Queue.drain, drainAux_eq]
    exact List.Chain'.imp
      (fun a b hab => by rw [task_cmp_lt a b hab]; intro hc; cases hc)
      (List.Pairwise.chain' hwf)
  · cases q with
    | nil => intro _; rfl
    | cons t rest =>
      rw [(hmin t rest rfl).1]
      intro h
      cases h

/-- Witness for C5 on the two-task queue. -/
theorem c5_pop_min_witness :
    Queue.pop [taskA, taskB] = (some taskA, [taskB]) ∧
    List.Chain' (fun a b => Task.cmp a b ≠ .gt) (Queue.drain [taskA, taskB]) :=
  ⟨((c5_pop_min [taskA, taskB] (by decide)).2.1 taskA [taskB] rfl).1,
   (c5_pop_min [taskA, taskB] (by decide)).2.2.1⟩

/-- C10: the ordering the Work Queue uses is consistent with its
equality: the `ArcCmp` comparison returns `Equal` exactly when the two
handles reference the same underlying allocation, which is also
exactly what `Arc::ptr_eq` (its `PartialEq`) tests.  This is the
property that makes the `BTreeSet`-backed queue deduplicate by store
identity. -/
theorem c10_arccmp_consistency {T : Type} (a b : ArcCmp T) :
    (ArcCmp.cmp a b = .eq ↔ ArcCmp.ptrEq a b = true) ∧
    (ArcCmp.ptrEq a b = true ↔ a.addr = b.addr) := by
  have hptr : ArcCmp.ptrEq a b = true ↔ a.addr = b.addr := by
    rw [ArcCmp.ptrEq]
    exact beq_iff_eq
  refine ⟨?_, hptr⟩
  rw [ArcCmp.cmp, hptr]
  exact nat_compare_eq_iff a.addr b.addr

/-- Witness for C8 at a full maildir and at one missing `tmp`. -/
theorem c8_dir_classification_witness :
    Type'.guess (.dir 0 (.cons "cur" (.dir 1 .nil) (.cons "new" (.dir 2 .nil)
      (.cons "tmp" (.dir 3 .nil) .nil)))) = .ok (some .Dir) ∧
    Type'.guess (.dir 0 (.cons "cur" (.dir 1 .nil) (.cons "new" (.dir 2 .nil)
      .nil))) = .ok none :=
  ⟨(c8_dir_classification 0 (.cons "cur" (.dir 1 .nil) (.cons "new" (.dir 2 .nil)
      (.cons "tmp" (.dir 3 .nil) .nil)))).1.mpr (by decide),
   (c8_dir_classification 0 (.cons "cur" (.dir 1 .nil) (.cons "new" (.dir 2 .nil)
      .nil))).2 (by decide)⟩

theorem applyStep_frame (m : Mailbox) (s : CbStep) :
    (applyStep m s).path = m.path ∧ (applyStep m s).tp = m.tp ∧
      (applyStep m s).cache = m.cache := by
  cases s <;> simp [applyStep]

theorem foldl_steps_frame (steps : List CbStep) :
    ∀ m : Mailbox,
      (steps.foldl applyStep m).path = m.path ∧
      (steps.foldl applyStep m).tp = m.tp ∧
      (steps.foldl applyStep m).cache = m.cache := by
  induction steps with
  | nil => intro m; exact ⟨rfl, rfl, rfl⟩
  | cons s rest ih =>
    intro m
    rw [List.foldl_cons]
    obtain ⟨h1, h2, h3⟩ := ih (applyStep m s)
    obtain ⟨g1, g2, g3⟩ := applyStep_frame m s
    exact ⟨h1.trans g1, h2.trans g2, h3.trans g3⟩

theorem runCallback_frame (m m' : Mailbox) (cb : Callback)
    (h : runCallback m cb = .ok m') :
    m'.path = m.path ∧ m'.tp = m.tp ∧ m'.cache = m.cache := by
  rw [runCallback] at h
  by_cases hf : cb.fails
  · simp [hf] at h
  · simp only [hf, if_false, Bool.false_eq_true] at h
    cases h
    exact foldl_steps_frame cb.steps m

/-- C9: for every discovered store and every sequence of customization
callbacks run on it, a successful customization returns a store with
the same `path`, `tp` (kind) and `cache` as the store passed in: the
userdata handle registered by `Mailbox::add_methods` exposes mutators
for `name`, `prio` and `shortcut` only, so `path` and kind are
read-only from the script's perspective. -/
theorem c9_customization_frame (cbs : List Callback) :
    ∀ m m' : Mailbox, configure_mbox cbs m = .ok m' →
      m'.path = m.path ∧ m'.tp = m.tp ∧ m'.cache = m.cache := by
  induction cbs with
  | nil =>
    intro m m' h
    rw [configure_mbox] at h
    cases h
    exact ⟨rfl, rfl, rfl⟩
  | cons cb rest ih =>
    intro m m' h
    rw [configure_mbox] at h
    cases hr : runCallback m cb with
    | error e => rw [hr] at h; cases h
    | ok m1 =>
      rw [hr] at h
      obtain ⟨h1, h2, h3⟩ := ih m1 m' h
      obtain ⟨g1, g2, g3⟩ := runCallback_frame m m1 cb hr
      exact ⟨h1.trans g1, h2.trans g2, h3.trans g3⟩

/-- Witness for C9: the concrete callback rewrites name, priority and
shortcut but the customized store keeps path, kind and cache. -/
theorem c9_customization_frame_witness :
    (Mailbox.mk ["r", "a"] "x" .Dir .MdirCache 5 (some 'a')).path =
        sampleMailbox.path ∧
    (Mailbox.mk ["r", "a"] "x" .Dir .MdirCache 5 (some 'a')).tp =
        sampleMailbox.tp ∧
    (Mailbox.mk ["r", "a"] "x" .Dir .MdirCache 5 (some 'a')).cache =
        sampleMailbox.cache :=
  c9_customization_frame [sampleCallback] sampleMailbox
    (Mailbox.mk ["r", "a"] "x" .Dir .MdirCache 5 (some 'a')) (by rfl)

/-- C6: committing a discovered store whose (possibly script-modified)
name is already present in the `MAILBOXES` registry trips the
`assert!` around the insert: the process panics.  The result is the
distinguished `panic` outcome, not the recoverable `err` outcome
`initial_scan` can return, and no state in which the existing entry
was overwritten is ever produced. -/
theorem c6_duplicate_name_panics (cbacks : List Callback) (st : ScanState)
    (path : FPath) (mbox m' : Mailbox)
    (hconf : configure_mbox cbacks mbox = .ok m')
    (hdup : (st.mailboxes.lookup m'.name).isSome = true) :
    commit cbacks st path mbox = .panic := by
  simp only [commit]
  rw [hconf]
  simp [hdup]

/-- Witness for C6: committing a second store named "a" into a
registry that already holds one. -/
theorem c6_duplicate_name_panics_witness :
    commit [] ⟨[["r", "a"]], [("a", ⟨0, sampleMailbox⟩)], [.Rescan ⟨0, sampleMailbox⟩], 1⟩
      ["q", "a"] sampleMailbox = .panic :=
  c6_duplicate_name_panics []
    ⟨[["r", "a"]], [("a", ⟨0, sampleMailbox⟩)], [.Rescan ⟨0, sampleMailbox⟩], 1⟩
    ["q", "a"] sampleMailbox sampleMailbox (by rfl) (by decide)

/-- C2.  The claim states that a `storage.meta` entry matching a
committed store's path is applied as a final attribute override.  It
is not: `initial_scan` never reads `cfg.storage.meta`, so the store
committed for r/mb keeps the default priority 0 and no shortcut even
though the configuration carries an override of priority 9 and
shortcut 'z' for exactly that path. -/
theorem c2_counterexample :
    c2Cfg.meta.lookup ["r", "mb"] = some ⟨some 'z', 9⟩ ∧
    (committedStore (initial_scan c2Cfg c2Fs) "mb").map Mailbox.path =
      some ["r", "mb"] ∧
    (committedStore (initial_scan c2Cfg c2Fs) "mb").map Mailbox.prio = some 0 ∧
    (committedStore (initial_scan c2Cfg c2Fs) "mb").map Mailbox.shortcut =
      some none := by
  decide

/-- C2, amended: the configuration accepts and parses `storage.meta`,
but the scan does not apply it: the result of `initial_scan` is
independent of the `meta` table, so every committed store carries only
its defaults as modified by the script callbacks. -/
theorem c2_meta_ignored (cfg : Cfg) (fs : FPath → Option FTree) :
    initial_scan cfg fs = initial_scan ⟨cfg.search, [], cfg.scripts⟩ fs := rfl

/-- C1.  The claim states that two discovery paths resolving (via a
symlink or duplicate roots) to the same canonical path yield exactly
one committed Store and one queued task.  It fails: the dedup set
stores the literal visited paths, so the discovery paths r/a and r/b,
which resolve to the same canonical maildir (identity 7), each pass
the cutoff, and one scan commits two Stores and enqueues two Rescan
tasks. -/
theorem c1_counterexample :
    (resolveIn c1Tree ["a"]).map FTree.cid = some 7 ∧
    (resolveIn c1Tree ["b"]).map FTree.cid = some 7 ∧
    storeCount (initial_scan c1Cfg c1Fs) = 2 ∧
    taskCount (initial_scan c1Cfg c1Fs) = 2 := by
  decide

theorem ftree_size_pos (t : FTree) : 1 ≤ FTree.size t := by
  cases t <;> simp [FTree.size, Forest.size]

theorem forest_size_pos (f : Forest) : 1 ≤ Forest.size f := by
  cases f
  · simp [Forest.size]
  · simp only [Forest.size]
    omega

theorem fpath_contains_iff (l : List FPath) (x : FPath) :
    l.contains x = true ↔ x ∈ l := by
  simp

theorem scan_cutoff_of_mem (d : List FPath) (p : FPath) (b : Bool) (h : p ∈ d) :
    scan_cutoff d p b = true := by
  rw [scan_cutoff, if_pos ((fpath_contains_iff d p).mpr h)]

theorem scan_cutoff_mono (d1 d2 : List FPath) (p : FPath) (b : Bool)
    (hsub : ∀ x ∈ d1, x ∈ d2) (h : scan_cutoff d1 p b = true) :
    scan_cutoff d2 p b = true := by
  rw [scan_cutoff] at h
  by_cases h1 : d1.contains p = true
  · exact scan_cutoff_of_mem d2 p b
      (hsub p ((fpath_contains_iff d1 p).mp h1))
  · rw [if_neg h1] at h
    cases hl : p.getLast? with
    | none => rw [hl] at h; cases h
    | some last =>
      rw [hl] at h
      simp only [Bool.and_eq_true] at h
      obtain ⟨⟨hb', hsd⟩, hpar⟩ := h
      have hpar2 : d2.contains p.dropLast = true :=
        (fpath_contains_iff d2 _).mpr
          (hsub _ ((fpath_contains_iff d1 _).mp hpar))
      rw [scan_cutoff]
      by_cases h2 : d2.contains p = true
      · rw [if_pos h2]
      · rw [if_neg h2, hl]
        simp [hb']
        exact ⟨by simpa using hsd, by simpa using hpar2⟩

theorem commit_ok_dedup (cb : List Callback) (st : ScanState) (p : FPath)
    (m : Mailbox) (st' : ScanState) (h : commit cb st p m = .ok st') :
    st'.dedup = p :: st.dedup := by
  simp only [commit] at h
  split at h
  · cases h
  · split at h
    · cases h
    · split at h
      · cases h
      · cases h
        rfl

theorem scan_dedup_mono : ∀ n : Nat,
    (∀ t : FTree, FTree.size t ≤ n → ∀ cb p st st',
      scanNode cb p t st = .ok st' → ∀ x ∈ st.dedup, x ∈ st'.dedup) ∧
    (∀ f : Forest, Forest.size f ≤ n → ∀ cb base st st',
      scanForest cb base f st = .ok st' → ∀ x ∈ st.dedup, x ∈ st'.dedup) := by
  intro n
  induction n with
  | zero =>
    constructor
    · intro t ht
      exact absurd ((ftree_size_pos t).trans ht) (Nat.not_succ_le_zero 0)
    · intro f hf
      exact absurd ((forest_size_pos f).trans hf) (Nat.not_succ_le_zero 0)
  | succ n ih =>
    obtain ⟨ihT, ihF⟩ := ih
    constructor
    · intro t ht cb p st st' h x hx
      cases t with
      | file cid content gz op =>
        rw [scanNode] at h
        by_cases hcut :
            scan_cutoff st.dedup p (FTree.isDirB (.file cid content gz op)) = true
        · rw [if_pos hcut] at h
          cases h
          exact hx
        · rw [if_neg hcut] at h
          cases hdet : Mailbox.detect p (.file cid content gz op) with
          | error e =>
            rw [hdet] at h
            simp at h
            subst h
            exact hx
          | ok om =>
            cases om with
            | none =>
              rw [hdet] at h
              simp at h
              subst h
              exact hx
            | some m =>
              rw [hdet] at h
              simp at h
              cases hcom : commit cb st p m with
              | ok st1 =>
                rw [hcom] at h
                simp at h
                subst h
                rw [commit_ok_dedup cb st p m st1 hcom]
                exact List.mem_cons_of_mem p hx
              | err => rw [hcom] at h; cases h
              | panic => rw [hcom] at h; cases h
      | other cid =>
        rw [scanNode] at h
        by_cases hcut : scan_cutoff st.dedup p (FTree.isDirB (.other cid)) = true
        · rw [if_pos hcut] at h
          cases h
          exact hx
        · rw [if_neg hcut] at h
          cases hdet : Mailbox.detect p (.other cid) with
          | error e =>
            rw [hdet] at h
            simp at h
            subst h
            exact hx
          | ok om =>
            cases om with
            | none =>
              rw [hdet] at h
              simp at h
              subst h
              exact hx
            | some m =>
              rw [hdet] at h
              simp at h
              cases hcom : commit cb st p m with
              | ok st1 =>
                rw [hcom] at h
                simp at h
                subst h
                rw [commit_ok_dedup cb st p m st1 hcom]
                exact List.mem_cons_of_mem p hx
              | err => rw [hcom] at h; cases h
              | panic => rw [hcom] at h; cases h
      | dir cid children =>
        have hsize : Forest.size children ≤ n := by
          simp only [FTree.size] at ht
          omega
        rw [scanNode] at h
        by_cases hcut :
            scan_cutoff st.dedup p (FTree.isDirB (.dir cid children)) = true
        · rw [if_pos hcut] at h
          cases h
          exact hx
        · rw [if_neg hcut] at h
          cases hdet : Mailbox.detect p (.dir cid children) with
          | error e =>
            rw [hdet] at h
            simp at h
            exact ihF children hsize cb p st st' h x hx
          | ok om =>
            cases om with
            | none =>
              rw [hdet] at h
              simp at h
              exact ihF children hsize cb p st st' h x hx
            | some m =>
              rw [hdet] at h
              simp at h
              cases hcom : commit cb st p m with
              | ok st1 =>
                rw [hcom] at h
                simp at h
                have hx1 : x ∈ st1.dedup := by
                  rw [commit_ok_dedup cb st p m st1 hcom]
                  exact List.mem_cons_of_mem p hx
                exact ihF children hsize cb p st1 st' h x hx1
              | err => rw [hcom] at h; cases h
              | panic => rw [hcom] at h; cases h
    · intro f hf cb base st st' h x hx
      cases f with
      | nil =>
        rw [scanForest] at h
        cases h
        exact hx
      | cons name t rest =>
        have hst : FTree.size t ≤ n := by
          simp only [Forest.size] at hf
          omega
        have hsr : Forest.size rest ≤ n := by
          simp only [Forest.size] at hf
          omega
        rw [scanForest] at h
        cases hn : scanNode cb (base ++ [name]) t st with
        | ok st1 =>
          rw [hn] at h
          exact ihF rest hsr cb base st1 st' h x
            (ihT t hst cb (base ++ [name]) st st1 hn x hx)
        | err => rw [hn] at h; cases h
        | panic => rw [hn] at h; cases h

theorem scan_rescan_noop : ∀ n : Nat,
    (∀ t : FTree, FTree.size t ≤ n → ∀ cb p st st' st2,
      scanNode cb p t st = .ok st' → (∀ x ∈ st'.dedup, x ∈ st2.dedup) →
      scanNode cb p t st2 = .ok st2) ∧
    (∀ f : Forest, Forest.size f ≤ n → ∀ cb base st st' st2,
      scanForest cb base f st = .ok st' → (∀ x ∈ st'.dedup, x ∈ st2.dedup) →
      scanForest cb base f st2 = .ok st2) := by
  intro n
  induction n with
  | zero =>
    constructor
    · intro t ht
      exact absurd ((ftree_size_pos t).trans ht) (Nat.not_succ_le_zero 0)
    · intro f hf
      exact absurd ((forest_size_pos f).trans hf) (Nat.not_succ_le_zero 0)
  | succ n ih =>
    obtain ⟨ihT, ihF⟩ := ih
    constructor
    · intro t ht cb p st st' st2 h hsub
      by_cases hcut2 : scan_cutoff st2.dedup p t.isDirB = true
      · rw [scanNode, if_pos hcut2]
      · by_cases hcut1 : scan_cutoff st.dedup p t.isDirB = true
        · rw [scanNode, if_pos hcut1] at h
          cases h
          exact absurd (scan_cutoff_mono st.dedup st2.dedup p _ hsub hcut1) hcut2
        · cases t with
          | file cid content gz op =>
            rw [scanNode, if_neg hcut1] at h
            cases hdet : Mailbox.detect p (.file cid content gz op) with
            | error e =>
              rw [hdet] at h
              simp at h
              subst h
              rw [scanNode, if_neg hcut2, hdet]
            | ok om =>
              cases om with
              | none =>
                rw [hdet] at h
                simp at h
                subst h
                rw [scanNode, if_neg hcut2, hdet]
              | some m =>
                rw [hdet] at h
                simp at h
                cases hcom : commit cb st p m with
                | ok st1 =>
                  rw [hcom] at h
                  simp at h
                  subst h
                  have hp : p ∈ st2.dedup := by
                    apply hsub
                    rw [commit_ok_dedup cb st p m _ hcom]
                    exact List.mem_cons_self p _
                  exact absurd (scan_cutoff_of_mem st2.dedup p _ hp) hcut2
                | err => rw [hcom] at h; simp at h
                | panic => rw [hcom] at h; simp at h
          | other cid =>
            rw [scanNode, if_neg hcut1] at h
            cases hdet : Mailbox.detect p (.other cid) with
            | error e =>
              rw [hdet] at h
              simp at h
              subst h
              rw [scanNode, if_neg hcut2, hdet]
            | ok om =>
              cases om with
              | none =>
                rw [hdet] at h
                simp at h
                subst h
                rw [scanNode, if_neg hcut2, hdet]
              | some m =>
                rw [hdet] at h
                simp at h
                cases hcom : commit cb st p m with
                | ok st1 =>
                  rw [hcom] at h
                  simp at h
                  subst h
                  have hp : p ∈ st2.dedup := by
                    apply hsub
                    rw [commit_ok_dedup cb st p m _ hcom]
                    exact List.mem_cons_self p _
                  exact absurd (scan_cutoff_of_mem st2.dedup p _ hp) hcut2
                | err => rw [hcom] at h; simp at h
                | panic => rw [hcom] at h; simp at h
          | dir cid children =>
            have hsize : Forest.size children ≤ n := by
              simp only [FTree.size] at ht
              omega
            rw [scanNode, if_neg hcut1] at h
            cases hdet : Mailbox.detect p (.dir cid children) with
            | error e =>
              rw [hdet] at h
              simp at h
              rw [scanNode, if_neg hcut2, hdet]
              simp
              exact ihF children hsize cb p st st' st2 h hsub
            | ok om =>
              cases om with
              | none =>
                rw [hdet] at h
                simp at h
                rw [scanNode, if_neg hcut2, hdet]
                simp
                exact ihF children hsize cb p st st' st2 h hsub
              | some m =>
                rw [hdet] at h
                simp at h
                cases hcom : commit cb st p m with
                | ok st1 =>
                  rw [hcom] at h
                  simp at h
                  have hp : p ∈ st2.dedup := by
                    apply hsub
                    apply (scan_dedup_mono (Forest.size children)).2 children
                      le_rfl cb p st1 st' h
                    rw [commit_ok_dedup cb st p m _ hcom]
                    exact List.mem_cons_self p _
                  exact absurd (scan_cutoff_of_mem st2.dedup p _ hp) hcut2
                | err => rw [hcom] at h; simp at h
                | panic => rw [hcom] at h; simp at h
    · intro f hf cb base st st' st2 h hsub
      cases f with
      | nil =>
        rw [scanForest]
      | cons name t rest =>
        have hst : FTree.size t ≤ n := by
          simp only [Forest.size] at hf
          omega
        have hsr : Forest.size rest ≤ n := by
          simp only [Forest.size] at hf
          omega
        rw [scanForest] at h
        cases hn : scanNode cb (base ++ [name]) t st with
        | ok st1 =>
          rw [hn] at h
          have hsub1 : ∀ x ∈ st1.dedup, x ∈ st2.dedup := by
            intro x hx
            exact hsub x
              ((scan_dedup_mono (Forest.size rest)).2 rest le_rfl cb base st1 st' h x hx)
          have h1 := ihT t hst cb (base ++ [name]) st st1 st2 hn hsub1
          have h2 := ihF rest hsr cb base st1 st' st2 h hsub
          rw [scanForest, h1]
          exact h2
        | err => rw [hn] at h; cases h
        | panic => rw [hn] at h; cases h

/-- C1, amended: the Dedup Set operates on the literal visited paths,
not on canonical paths.  A duplicate root configuration naming the
same path twice is therefore fully deduplicated — scanning the root a
second time commits nothing and enqueues nothing, because every
previously claimed path is cut off and every other entry classifies as
before — whereas two textually different discovery paths resolving to
the same canonical target are both claimed (see the counterexample:
the scan commits one Store and one task per literal path, not per
canonical path). -/
theorem c1_duplicate_root_dedup (p : FPath) (meta : List (FPath × StorageMeta))
    (cbacks : List Callback) (fs : FPath → Option FTree) :
    initial_scan ⟨[p, p], meta, cbacks⟩ fs = initial_scan ⟨[p], meta, cbacks⟩ fs := by
  cases hfs : fs p with
  | none =>
    simp only [initial_scan, initialScanGo, hfs]
  | some t =>
    cases hscan : scanNode cbacks p t ScanState.init with
    | ok st1 =>
      have hno := (scan_rescan_noop (FTree.size t)).1 t le_rfl cbacks p
        ScanState.init st1 st1 hscan (fun x hx => hx)
      simp only [initial_scan, initialScanGo, hfs, hscan, hno]
    | err => simp only [initial_scan, initialScanGo, hfs, hscan]
    | panic => simp only [initial_scan, initialScanGo, hfs, hscan]

theorem insertTask_mem (t : Task) :
    ∀ (q : List Task) (y : Task), y ∈ insertTask t q → y = t ∨ y ∈ q := by
  intro q
  induction q with
  | nil =>
    intro y hy
    rw [insertTask] at hy
    exact Or.inl (List.mem_singleton.mp hy)
  | cons x xs ih =>
    intro y hy
    rw [insertTask] at hy
    by_cases h1 : Task.key t < Task.key x
    · rw [if_pos h1] at hy
      rcases List.mem_cons.mp hy with rfl | hy2
      · exact Or.inl rfl
      · exact Or.inr hy2
    · rw [if_neg h1] at hy
      by_cases h2 : Task.key t = Task.key x
      · rw [if_pos h2] at hy
        exact Or.inr hy
      · rw [if_neg h2] at hy
        rcases List.mem_cons.mp hy with rfl | hy2
        · exact Or.inr (List.mem_cons_self _ _)
        · rcases ih y hy2 with h | h
          · exact Or.inl h
          · exact Or.inr (List.mem_cons_of_mem _ h)

/-- The sorted-list representation invariant is preserved by `push`,
so every queue state reachable from `Queue::new` by the operations the
scanner uses satisfies `QueueWf`. -/
theorem queue_push_wf (t : Task) :
    ∀ q : List Task, QueueWf q → QueueWf (insertTask t q) := by
  intro q
  induction q with
  | nil =>
    intro _
    rw [insertTask]
    exact List.pairwise_singleton _ _
  | cons x xs ih =>
    intro hwf
    obtain ⟨hx, hxs⟩ := List.pairwise_cons.mp hwf
    rw [insertTask]
    by_cases h1 : Task.key t < Task.key x
    · rw [if_pos h1]
      refine List.pairwise_cons.mpr ⟨?_, hwf⟩
      intro y hy
      rcases List.mem_cons.mp hy with rfl | hy2
      · exact h1
      · exact h1.trans (hx y hy2)
    · by_cases h2 : Task.key t = Task.key x
      · rw [if_neg h1, if_pos h2]
        exact hwf
      · rw [if_neg h1, if_neg h2]
        refine List.pairwise_cons.mpr ⟨?_, ih hxs⟩
        intro y hy
        rcases insertTask_mem t xs y hy with rfl | hy2
        · have hle := Nat.le_of_not_lt h1
          omega
        · exact hx y hy2

/-- The representation invariant is preserved by `pop`. -/
theorem queue_pop_wf (q : Queue) (hwf : QueueWf q) : QueueWf (Queue.pop q).2 := by
  cases q with
  | nil => exact hwf
  | cons t rest =>
    rw [queue_pop_cons]
    exact (List.pairwise_cons.mp hwf).2

/-- Witness for C10 at equal and distinct allocation addresses. -/
theorem c10_arccmp_consistency_witness :
    ArcCmp.cmp (ArcCmp.mk 0 sampleMailbox) (ArcCmp.mk 0 sampleMailbox) = .eq ∧
    ¬ ArcCmp.cmp (ArcCmp.mk 0 sampleMailbox) (ArcCmp.mk 1 sampleMailbox) = .eq :=
  ⟨(c10_arccmp_consistency (ArcCmp.mk 0 sampleMailbox)
      (ArcCmp.mk 0 sampleMailbox)).1.mpr (by decide),
   fun h =>
     absurd
       ((c10_arccmp_consistency (ArcCmp.mk 0 sampleMailbox)
          (ArcCmp.mk 1 sampleMailbox)).2.mp
         ((c10_arccmp_consistency (ArcCmp.mk 0 sampleMailbox)
            (ArcCmp.mk 1 sampleMailbox)).1.mp h))
       (by decide)⟩

end Mix
